import Mathlib

/-!
Verification development for the TypeORM entity-to-interface generator.

The generator is embedded shallowly: the observable surface of the parsed
input (class declarations, property declarations, decorator names, type
nodes and semantic types as queried by the generator) is modelled as plain
data, and the two-pass generation pipeline (symbol-table construction,
relation classification, type rewriting, shape assembly, output ordering)
is translated function-by-function from the source.

Two variants of the generator exist in the repository and both are
embedded: the aggregate-output variant (single output file, enum
passthrough, "Data"-suffixed full shapes) in the root namespace, and the
per-class-file variant (one interface per class, cross-file import
computation) in namespace `PerFile`.
-/

/-! ## Input data model

Each structure records exactly the observations the generator makes on the
parsed syntax tree: decorator names, question tokens, type-node text, the
semantic type's symbol name, enum-ness of the symbol's declarations, array
element type, and generic type arguments. -/

/-- A semantic type reached through `getArrayElementType()` or
`getTypeArguments()`; the generator only reads `getSymbol()?.getName()`
from such a type. -/
structure TypeRef where
  symbolName : Option String
deriving DecidableEq

/-- The semantic type of a property (`prop.getType()`), restricted to the
fields the generator queries: `getText()`, `getSymbol()?.getName()`,
whether the symbol's declarations include an enum declaration,
`getArrayElementType()` and `isArray()`. -/
structure TsType where
  text : String
  symbolName : Option String
  symbolIsEnumDecl : Bool
  arrayElement : Option TypeRef
  isArr : Bool
deriving DecidableEq

/-- The declared type node of a property (`prop.getTypeNode()`): its text
and the type arguments of its type (`getType().getTypeArguments()`). -/
structure TypeNodeInfo where
  text : String
  typeArgs : List TypeRef
deriving DecidableEq

/-- A parsed class property: name, decorator names, optionality marker,
optional declared type node, and semantic type. -/
structure PropertyDecl where
  name : String
  decorators : List String
  hasQuestionToken : Bool
  typeNode : Option TypeNodeInfo
  type : TsType
deriving DecidableEq

/-- A parsed class declaration; `getName()` may be absent. -/
structure ClassDecl where
  name : Option String
  properties : List PropertyDecl
deriving DecidableEq

/-- A member of a parsed enum declaration, with the optional initializer
text. -/
structure EnumMember where
  name : String
  initializer : Option String
deriving DecidableEq

/-- A parsed enum declaration; `getName()` may be absent. -/
structure EnumDecl where
  name : Option String
  members : List EnumMember
deriving DecidableEq

/-- One input source file: its enum declarations and class declarations in
declaration order. -/
structure SourceFileUnit where
  enums : List EnumDecl
  classes : List ClassDecl
deriving DecidableEq

/-! ## Output data model -/

/-- The enum structure copied into the output
(`EnumDeclarationStructure`). -/
structure EnumStructure where
  name : String
  members : List EnumMember
deriving DecidableEq

/-- An output property signature (`PropertySignatureStructure`). -/
structure PropertySignature where
  name : String
  type : String
  hasQuestionToken : Bool
deriving DecidableEq

/-- An output interface structure (`InterfaceDeclarationStructure`). -/
structure InterfaceStructure where
  name : String
  properties : List PropertySignature
deriving DecidableEq

/-- One statement of the generated output file: either an enum declaration
or an interface declaration. -/
inductive OutputStatement where
  | enumStmt : EnumStructure → OutputStatement
  | interfaceStmt : InterfaceStructure → OutputStatement
deriving DecidableEq

/-! ## JavaScript collection semantics

`Map` is modelled as an association list in insertion order: `set` on an
existing key overwrites the value in place (keeping the original
position), `set` on a fresh key appends.  `Set` is modelled as a list in
insertion order with duplicate inserts ignored. -/

/-- Keys of a JS `Map`, in insertion order. -/
def mapKeys {V : Type} (m : List (String × V)) : List String :=
  m.map (fun kv => kv.1)

/-- Values of a JS `Map`, in insertion order (`Array.from(m.values())`). -/
def mapValues {V : Type} (m : List (String × V)) : List V :=
  m.map (fun kv => kv.2)

/-- JS `Map.prototype.has`. -/
def mapHas {V : Type} (m : List (String × V)) (k : String) : Bool :=
  m.any (fun kv => kv.1 == k)

/-- JS `Map.prototype.get` (`none` models `undefined`). -/
def mapGet {V : Type} (m : List (String × V)) (k : String) : Option V :=
  (m.find? (fun kv => kv.1 == k)).map (fun kv => kv.2)

/-- JS `Map.prototype.set`: overwrite the existing entry in place (keys
are unique by construction), append a fresh key at the end. -/
def mapSet {V : Type} : List (String × V) → String → V → List (String × V)
  | [], k, v => [(k, v)]
  | kv :: m, k, v =>
      if kv.1 == k then (k, v) :: m else kv :: mapSet m k v

/-- JS `Set.prototype.add` on a list kept in insertion order. -/
def setAdd (l : List String) (x : String) : List String :=
  if x ∈ l then l else l ++ [x]

/-- JS string truthiness applied to an optional string: `undefined` and
the empty string are falsy.  Returns the string when truthy. -/
def jsTruthyName : Option String → Option String
  | some s => if s = "" then none else some s
  | none => none

/-- JS `a || b` for `a : string | undefined` and `b : string`: `b` when
`a` is `undefined` or the empty string. -/
def jsOrString (x : Option String) (d : String) : String :=
  match x with
  | some s => if s = "" then d else s
  | none => d

/-- Whether `pat` is a prefix of `l` (character lists). -/
def charsHavePrefix : List Char → List Char → Bool
  | [], _ => true
  | _ :: _, [] => false
  | p :: ps, c :: cs => p == c && charsHavePrefix ps cs

/-- Whether `pat` occurs contiguously inside `l` (character lists). -/
def charsContain (l pat : List Char) : Bool :=
  match l with
  | [] => pat.isEmpty
  | _ :: rest => charsHavePrefix pat l || charsContain rest pat

/-- JS `String.prototype.includes`. -/
def jsIncludes (s pat : String) : Bool :=
  charsContain s.data pat.data

/-! ## Pass 1: symbol table and enum collection

`interfaceMap` maps each truthy class name to `usePrefix ? "I" + name :
name`; `enumMap` maps each truthy enum name to its copied enum
structure. -/

/-- Shape name computed for a class name:
`usePrefix ? "I" + className : className`. -/
def shapeName (pfx : Bool) (className : String) : String :=
  if pfx then "I" ++ className else className

/-- Pass-1 step over the classes of one source file. -/
def addClassesToMap (pfx : Bool) (m : List (String × String))
    (cs : List ClassDecl) : List (String × String) :=
  cs.foldl
    (fun m c =>
      match jsTruthyName c.name with
      | some className => mapSet m className (shapeName pfx className)
      | none => m)
    m

/-- Pass 1, symbol table: `interfaceMap` after all source files. -/
def buildInterfaceMap (files : List SourceFileUnit) (pfx : Bool) :
    List (String × String) :=
  files.foldl (fun m f => addClassesToMap pfx m f.classes) []

/-- Pass-1 step over the enums of one source file. -/
def addEnumsToMap (m : List (String × EnumStructure))
    (es : List EnumDecl) : List (String × EnumStructure) :=
  es.foldl
    (fun m e =>
      match jsTruthyName e.name with
      | some enumName => mapSet m enumName ⟨enumName, e.members⟩
      | none => m)
    m

/-- Pass 1, enums: `enumMap` after all source files. -/
def buildEnumMap (files : List SourceFileUnit) :
    List (String × EnumStructure) :=
  files.foldl (fun m f => addEnumsToMap m f.enums) []

/-! ## Pass 2: relation classification and type rewriting
(aggregate-output variant) -/

/-- The fixed set of relation-marker decorator names. -/
def relationDecorators : List String :=
  ["OneToMany", "ManyToOne", "OneToOne", "ManyToMany"]

/-- `decorators.some((dec) => relationDecorators.includes(dec))`. -/
def hasRelationDecorator (decorators : List String) : Bool :=
  decorators.any (fun dec => relationDecorators.contains dec)

/-- The enum-type rewrite preceding relation handling: when the
property's type symbol exists and is declared as an enum, the type text is
replaced by the symbol's name (both the local-enum and imported-enum
branches of the source assign the same name). -/
def enumRewrittenType (enumMap : List (String × EnumStructure))
    (t : TsType) : String :=
  match t.symbolName with
  | some enumName =>
      if t.symbolIsEnumDecl then
        if mapHas enumMap enumName then enumName else enumName
      else t.text
  | none => t.text

/-- The related entity name read in the eager branch:
`(type.getArrayElementType() || type).getSymbol()?.getName()`. -/
def eagerRelatedName (t : TsType) : Option String :=
  match t.arrayElement with
  | some e => e.symbolName
  | none => t.symbolName

/-- Eager-relation rewrite of the aggregate-output variant: resolve the
element (or the type itself), map it through the symbol table with
fallback to the original name, add the "Data" suffix, and re-apply `[]`
when the type is an array; `'any'` when no symbol resolves. -/
def eagerRewrite (interfaceMap : List (String × String)) (t : TsType) :
    String :=
  match eagerRelatedName t with
  | some relatedEntityName =>
      let relatedInterfaceName :=
        jsOrString (mapGet interfaceMap relatedEntityName) relatedEntityName
      if t.isArr then relatedInterfaceName ++ "Data[]"
      else relatedInterfaceName ++ "Data"
  | none => "any"

/-- Whether the property takes the lazy-relation branch:
`propTypeNode && propTypeNode.getText().includes('Promise')`. -/
def usesLazyBranch (p : PropertyDecl) : Bool :=
  match p.typeNode with
  | some node => jsIncludes node.text "Promise"
  | none => false

/-- The full type rewrite of the aggregate-output variant for one
property: type text, then the enum rewrite, then — for relation-decorated
properties — the lazy-relation rewrite (when the type node text contains
"Promise") or the eager-relation rewrite. -/
def computePropType (enumMap : List (String × EnumStructure))
    (interfaceMap : List (String × String)) (p : PropertyDecl) : String :=
  let propType := enumRewrittenType enumMap p.type
  if hasRelationDecorator p.decorators then
    match p.typeNode with
    | some node =>
        if jsIncludes node.text "Promise" then
          match node.typeArgs with
          | [] => propType
          | relatedType :: _ =>
              match relatedType.symbolName with
              | some relatedEntityName =>
                  "Promise<"
                    ++ jsOrString (mapGet interfaceMap relatedEntityName)
                        relatedEntityName
                    ++ "Data>"
              | none => "any"
        else eagerRewrite interfaceMap p.type
    | none => eagerRewrite interfaceMap p.type
  else propType

/-- The property signature pushed into the output interfaces. -/
def propSignature (enumMap : List (String × EnumStructure))
    (interfaceMap : List (String × String)) (p : PropertyDecl) :
    PropertySignature :=
  ⟨p.name, computePropType enumMap interfaceMap p, p.hasQuestionToken⟩

/-- The per-class property loop: pushes each signature into the plain
list unless the property is relation-decorated, and always into the data
list. -/
def classProperties (enumMap : List (String × EnumStructure))
    (interfaceMap : List (String × String)) (props : List PropertyDecl) :
    List PropertySignature × List PropertySignature :=
  props.foldl
    (fun acc p =>
      let s := propSignature enumMap interfaceMap p
      (if hasRelationDecorator p.decorators then acc.1 else acc.1 ++ [s],
       acc.2 ++ [s]))
    ([], [])

/-- Pass-2 handling of one class: skip when the class name is falsy,
otherwise emit the plain interface and the "Data" interface.  The symbol
table lookup mirrors `interfaceMap.get(className) as string`; pass 1
guarantees the entry exists for every truthy class name. -/
def buildClassInterfaces (enumMap : List (String × EnumStructure))
    (interfaceMap : List (String × String)) (c : ClassDecl) :
    List InterfaceStructure :=
  match jsTruthyName c.name with
  | none => []
  | some className =>
      let interfaceName := (mapGet interfaceMap className).getD ""
      let interfaceNameData := interfaceName ++ "Data"
      let ps := classProperties enumMap interfaceMap c.properties
      [⟨interfaceName, ps.1⟩, ⟨interfaceNameData, ps.2⟩]

/-- Pass 2 over all source files: `allInterfaces` in push order. -/
def allInterfacesOf (files : List SourceFileUnit) (pfx : Bool) :
    List InterfaceStructure :=
  let enumMap := buildEnumMap files
  let interfaceMap := buildInterfaceMap files pfx
  files.foldl
    (fun acc f =>
      f.classes.foldl
        (fun acc c => acc ++ buildClassInterfaces enumMap interfaceMap c)
        acc)
    []

/-- The statements of the generated output file:
`[...allEnums, ...allInterfaces]`. -/
def outputStatements (files : List SourceFileUnit) (pfx : Bool) :
    List OutputStatement :=
  (mapValues (buildEnumMap files)).map OutputStatement.enumStmt
    ++ (allInterfacesOf files pfx).map OutputStatement.interfaceStmt

/-- The whole run of the aggregate-output variant: when no source file
matched, abort with the fatal message and exit code 1 before any
generation; otherwise produce the output statements. -/
def runProgram (files : List SourceFileUnit) (pfx : Bool) :
    Except (String × Nat) (List OutputStatement) :=
  if files.length = 0 then
    Except.error ("No files matched the input pattern", 1)
  else
    Except.ok (outputStatements files pfx)

/-! ## Per-class-file variant (one interface per class, import wiring)

This variant emits a single interface per class (all properties, relation
types rewritten without the "Data" suffix) and computes, per generated
interface, the set of import names by regex-scanning the property type
texts. -/

namespace PerFile

/-- Eager-relation rewrite of the per-class-file variant: like the
aggregate variant but without the "Data" suffix. -/
def eagerRewrite (interfaceMap : List (String × String)) (t : TsType) :
    String :=
  match eagerRelatedName t with
  | some relatedEntityName =>
      let relatedInterfaceName :=
        jsOrString (mapGet interfaceMap relatedEntityName) relatedEntityName
      if t.isArr then relatedInterfaceName ++ "[]"
      else relatedInterfaceName
  | none => "any"

/-- The type rewrite of the per-class-file variant for one property:
no enum handling, no "Data" suffix. -/
def computePropType (interfaceMap : List (String × String))
    (p : PropertyDecl) : String :=
  let propType := p.type.text
  if hasRelationDecorator p.decorators then
    match p.typeNode with
    | some node =>
        if jsIncludes node.text "Promise" then
          match node.typeArgs with
          | [] => propType
          | relatedType :: _ =>
              match relatedType.symbolName with
              | some relatedEntityName =>
                  "Promise<"
                    ++ jsOrString (mapGet interfaceMap relatedEntityName)
                        relatedEntityName
                    ++ ">"
              | none => "any"
        else eagerRewrite interfaceMap p.type
    | none => eagerRewrite interfaceMap p.type
  else propType

/-- The interface properties of one class (all properties, rewritten). -/
def interfacePropertiesOf (interfaceMap : List (String × String))
    (props : List PropertyDecl) : List PropertySignature :=
  props.map (fun p =>
    ⟨p.name, computePropType interfaceMap p, p.hasQuestionToken⟩)

/-- A character matched by the regex character class `[A-Za-z0-9_]`. -/
def wordChar (c : Char) : Bool :=
  (('A' ≤ c && c ≤ 'Z') || ('a' ≤ c && c ≤ 'z')
    || ('0' ≤ c && c ≤ '9') || c == '_')

/-- The maximal leading run of word characters and the remainder. -/
def takeWordRun : List Char → List Char × List Char
  | [] => ([], [])
  | c :: cs =>
      if wordChar c then
        let r := takeWordRun cs
        (c :: r.1, r.2)
      else ([], c :: cs)

/-- Match `[A-Za-z0-9_]+(?:\x5b\x5d)?>?` at the head of the input,
returning the matched characters and the remainder; fails when no word
character leads. -/
def matchTail (cs : List Char) : Option (List Char × List Char) :=
  match takeWordRun cs with
  | ([], _) => none
  | (run, rest) =>
      let s1 : List Char × List Char :=
        match rest with
        | '[' :: ']' :: r => (['[', ']'], r)
        | _ => ([], rest)
      let s2 : List Char × List Char :=
        match s1.2 with
        | '>' :: r => (['>'], r)
        | _ => ([], s1.2)
      some (run ++ s1.1 ++ s2.1, s2.2)

/-- Match the regex `(?:Promise<)?([A-Za-z0-9_]+)(?:\x5b\x5d)?>?` at the
head of the input: try the optional `Promise<` prefix greedily, and
backtrack to a plain word-run match when no word character follows it. -/
def matchAt (cs : List Char) : Option (List Char × List Char) :=
  match cs with
  | 'P' :: 'r' :: 'o' :: 'm' :: 'i' :: 's' :: 'e' :: '<' :: rest =>
      match matchTail rest with
      | some mr =>
          some ('P' :: 'r' :: 'o' :: 'm' :: 'i' :: 's' :: 'e' :: '<'
                  :: mr.1,
                mr.2)
      | none => matchTail cs
  | _ => matchTail cs

/-- Fuelled scan implementing the global-flag behaviour of
`String.prototype.match`: repeatedly take the leftmost match, advancing
one character when no match starts at the current position.  Every
successful match consumes at least one character, so fuel equal to the
input length suffices. -/
def scanAux : Nat → List Char → List String
  | 0, _ => []
  | _ + 1, [] => []
  | fuel + 1, c :: rest =>
      match matchAt (c :: rest) with
      | some mr => String.mk mr.1 :: scanAux fuel mr.2
      | none => scanAux fuel rest

/-- JS `propType.match(/(?:Promise<)?([A-Za-z0-9_]+)(?:\x5b\x5d)?>?/g)`,
as the list of matched substrings (`[]` models a `null` result). -/
def jsMatchAll (s : String) : List String :=
  scanAux s.data.length s.data

/-- JS `typeName.replace(/(\x5b\x5d)|Promise<|>/g, '')`: delete every
occurrence of `[]`, `Promise<` and `>`, scanning left to right. -/
def cleanChars : List Char → List Char
  | [] => []
  | '[' :: ']' :: r => cleanChars r
  | 'P' :: 'r' :: 'o' :: 'm' :: 'i' :: 's' :: 'e' :: '<' :: r =>
      cleanChars r
  | '>' :: r => cleanChars r
  | c :: r => c :: cleanChars r

/-- The cleaned form of one regex token. -/
def cleanToken (s : String) : String :=
  String.mk (cleanChars s.data)

/-- The import-set computation of the per-class-file variant: for each
property, regex-extract the candidate tokens from its output type text,
strip wrapper syntax, and add the token to the set when it is a key of
the symbol table and differs from the current interface name. -/
def computeImports (interfaceMap : List (String × String))
    (interfaceName : String) (props : List PropertySignature) :
    List String :=
  props.foldl
    (fun acc prop =>
      (jsMatchAll prop.type).foldl
        (fun acc typeName =>
          let cleanType := cleanToken typeName
          if mapHas interfaceMap cleanType && cleanType != interfaceName
          then setAdd acc cleanType
          else acc)
        acc)
    []

/-- Pass-2 handling of one class in the per-class-file variant: the
generated interface together with its computed import name set. -/
def buildClassOutput (interfaceMap : List (String × String))
    (c : ClassDecl) : List (InterfaceStructure × List String) :=
  match jsTruthyName c.name with
  | none => []
  | some className =>
      let interfaceName := (mapGet interfaceMap className).getD ""
      let props := interfacePropertiesOf interfaceMap c.properties
      [(⟨interfaceName, props⟩, computeImports interfaceMap interfaceName props)]

end PerFile

/-! ## Derived notions used by the statements -/

/-- The truthy class names of a class list, in declaration order. -/
def truthyClassNamesOf (cs : List ClassDecl) : List String :=
  cs.filterMap (fun c => jsTruthyName c.name)

/-- The truthy class names across all source files, in traversal order. -/
def truthyClassNames (files : List SourceFileUnit) : List String :=
  files.flatMap (fun f => truthyClassNamesOf f.classes)

/-- The truthy enum names of an enum list, in declaration order. -/
def truthyEnumNamesOf (es : List EnumDecl) : List String :=
  es.filterMap (fun e => jsTruthyName e.name)

/-- The truthy enum names across all source files, in traversal order. -/
def truthyEnumNames (files : List SourceFileUnit) : List String :=
  files.flatMap (fun f => truthyEnumNamesOf f.enums)

/-- Deduplication keeping first occurrences, continuing from `acc`. -/
def firstSeenFrom (acc : List String) (l : List String) : List String :=
  l.foldl (fun acc n => if n ∈ acc then acc else acc ++ [n]) acc

/-- Deduplication of a list keeping first occurrences. -/
def firstSeen (l : List String) : List String :=
  firstSeenFrom [] l

/-! ## Lemmas about the JS `Map` model -/

theorem mapHas_iff {V : Type} (m : List (String × V)) (k : String) :
    mapHas m k = true ↔ k ∈ mapKeys m := by
  simp [mapHas, mapKeys, List.any_eq_true, List.mem_map, beq_iff_eq]


theorem mapKeys_mapSet {V : Type} (m : List (String × V)) (k : String)
    (v : V) :
    mapKeys (mapSet m k v)
      = if k ∈ mapKeys m then mapKeys m else mapKeys m ++ [k] := by
  induction m with
  | nil => simp [mapSet, mapKeys]
  | cons kv m ih =>
      by_cases hb : kv.1 = k
      · simp [mapSet, mapKeys, hb]
      · have hb2 : (kv.1 == k) = false := by
          cases hd : kv.1 == k
          · rfl
          · exact absurd (beq_iff_eq.mp hd) hb
        have hkkv : ¬ (k = kv.1) := fun hc => hb hc.symm
        have hstep : mapSet (kv :: m) k v = kv :: mapSet m k v := by
          simp [mapSet, hb2]
        rw [hstep,
            show mapKeys (kv :: mapSet m k v)
              = kv.1 :: mapKeys (mapSet m k v) from rfl,
            ih,
            show mapKeys (kv :: m) = kv.1 :: mapKeys m from rfl]
        by_cases hm : k ∈ mapKeys m
        · simp [hm, List.mem_cons]
        · simp [hm, hkkv, List.mem_cons]

theorem nodup_mapKeys_mapSet {V : Type} (m : List (String × V))
    (k : String) (v : V) (hn : (mapKeys m).Nodup) :
    (mapKeys (mapSet m k v)).Nodup := by
  rw [mapKeys_mapSet]
  by_cases h : k ∈ mapKeys m
  · simpa [h] using hn
  · simp only [h, if_false]
    rw [List.nodup_append]
    refine ⟨hn, List.nodup_singleton k, ?_⟩
    intro a ha hb
    simp only [List.mem_singleton] at hb
    exact h (hb ▸ ha)

theorem mapGet_mapSet_self {V : Type} (m : List (String × V))
    (k : String) (v : V) : mapGet (mapSet m k v) k = some v := by
  induction m with
  | nil => simp [mapSet, mapGet, List.find?_cons]
  | cons kv m ih =>
      by_cases hb : kv.1 = k
      · simp [mapSet, mapGet, hb, List.find?_cons]
      · have hb2 : (kv.1 == k) = false := by
          cases hd : kv.1 == k
          · rfl
          · exact absurd (beq_iff_eq.mp hd) hb
        simpa [mapSet, mapGet, hb2, List.find?_cons] using ih

theorem mapGet_mapSet_ne {V : Type} (m : List (String × V))
    (k k' : String) (v : V) (h : k' ≠ k) :
    mapGet (mapSet m k v) k' = mapGet m k' := by
  have hk : (k == k') = false := by
    cases hd : k == k'
    · rfl
    · exact absurd (beq_iff_eq.mp hd).symm h
  induction m with
  | nil => simp [mapSet, mapGet, List.find?_cons, hk]
  | cons kv m ih =>
      by_cases hb : kv.1 = k
      · have hbk : (kv.1 == k') = false := by
          cases hd : kv.1 == k'
          · rfl
          · exact absurd (hb ▸ beq_iff_eq.mp hd).symm h
        simp [mapSet, mapGet, hb, List.find?_cons, hk, hbk]
      · have hb2 : (kv.1 == k) = false := by
          cases hd : kv.1 == k
          · rfl
          · exact absurd (beq_iff_eq.mp hd) hb
        cases hd : kv.1 == k' with
        | true => simp [mapSet, mapGet, hb2, List.find?_cons, hd]
        | false => simpa [mapSet, mapGet, hb2, List.find?_cons, hd] using ih

theorem mapGet_eq_some_mem {V : Type} {m : List (String × V)}
    {k : String} {v : V} (h : mapGet m k = some v) : k ∈ mapKeys m := by
  induction m with
  | nil => simp [mapGet] at h
  | cons kv m ih =>
      by_cases hb : kv.1 = k
      · simp [mapKeys, hb]
      · have hb2 : (kv.1 == k) = false := by
          cases hd : kv.1 == k
          · rfl
          · exact absurd (beq_iff_eq.mp hd) hb
        simp only [mapGet, List.find?_cons, hb2] at h
        simp [mapKeys]
        exact Or.inr (by simpa [mapKeys] using ih (by simpa [mapGet] using h))

theorem mapGet_none_of_not_mem {V : Type} {m : List (String × V)}
    {k : String} (h : k ∉ mapKeys m) : mapGet m k = none := by
  cases hg : mapGet m k with
  | none => rfl
  | some v => exact absurd (mapGet_eq_some_mem hg) h

/-! ## Pass-1 invariants: the symbol table is total and injective -/

theorem addClassesToMap_spec (pfx : Bool) (cs : List ClassDecl) :
    ∀ (m : List (String × String)) (names : List String),
      (mapKeys m).Nodup →
      (∀ n, mapGet m n
          = if n ∈ names then some (shapeName pfx n) else none) →
      (mapKeys (addClassesToMap pfx m cs)).Nodup ∧
      ∀ n, mapGet (addClassesToMap pfx m cs) n
          = if n ∈ names ++ truthyClassNamesOf cs then
              some (shapeName pfx n)
            else none := by
  induction cs with
  | nil =>
      intro m names h1 h2
      refine ⟨h1, ?_⟩
      intro n
      simpa [addClassesToMap, truthyClassNamesOf] using h2 n
  | cons c cs ih =>
      intro m names h1 h2
      cases hname : jsTruthyName c.name with
      | none =>
          have hfold : addClassesToMap pfx m (c :: cs)
              = addClassesToMap pfx m cs := by
            simp [addClassesToMap, hname]
          have hnames : truthyClassNamesOf (c :: cs)
              = truthyClassNamesOf cs := by
            simp [truthyClassNamesOf, List.filterMap_cons, hname]
          rw [hfold, hnames]
          exact ih m names h1 h2
      | some n0 =>
          have hfold : addClassesToMap pfx m (c :: cs)
              = addClassesToMap pfx
                  (mapSet m n0 (shapeName pfx n0)) cs := by
            simp [addClassesToMap, hname]
          have hnames : truthyClassNamesOf (c :: cs)
              = n0 :: truthyClassNamesOf cs := by
            simp [truthyClassNamesOf, List.filterMap_cons, hname]
          rw [hfold, hnames]
          have h1' : (mapKeys (mapSet m n0 (shapeName pfx n0))).Nodup :=
            nodup_mapKeys_mapSet m n0 _ h1
          have h2' : ∀ n, mapGet (mapSet m n0 (shapeName pfx n0)) n
              = if n ∈ names ++ [n0] then some (shapeName pfx n)
                else none := by
            intro n
            by_cases hn : n = n0
            · subst hn
              rw [mapGet_mapSet_self]
              simp
            · rw [mapGet_mapSet_ne m n0 n _ hn, h2 n]
              by_cases hm : n ∈ names
              · simp [hm]
              · simp [hm, hn]
          have := ih (mapSet m n0 (shapeName pfx n0)) (names ++ [n0])
            h1' h2'
          refine ⟨this.1, ?_⟩
          intro n
          rw [this.2 n]
          by_cases hm : n ∈ names ++ [n0] ++ truthyClassNamesOf cs
          · have hm2 : n ∈ names ++ n0 :: truthyClassNamesOf cs := by
              simpa [List.append_assoc] using hm
            simp [hm, hm2]
          · have hm2 : n ∉ names ++ n0 :: truthyClassNamesOf cs := by
              intro hc
              exact hm (by simpa [List.append_assoc] using hc)
            simp [hm, hm2]

theorem buildInterfaceMapAux_spec (pfx : Bool)
    (fs : List SourceFileUnit) :
    ∀ (m : List (String × String)) (names : List String),
      (mapKeys m).Nodup →
      (∀ n, mapGet m n
          = if n ∈ names then some (shapeName pfx n) else none) →
      (mapKeys (fs.foldl (fun m f => addClassesToMap pfx m f.classes) m)).Nodup ∧
      ∀ n, mapGet (fs.foldl (fun m f => addClassesToMap pfx m f.classes) m) n
          = if n ∈ names ++ truthyClassNames fs then
              some (shapeName pfx n)
            else none := by
  induction fs with
  | nil =>
      intro m names h1 h2
      refine ⟨h1, ?_⟩
      intro n
      simpa [truthyClassNames] using h2 n
  | cons f fs ih =>
      intro m names h1 h2
      have hstep := addClassesToMap_spec pfx f.classes m names h1 h2
      have := ih (addClassesToMap pfx m f.classes)
        (names ++ truthyClassNamesOf f.classes) hstep.1 hstep.2
      refine ⟨by simpa [List.foldl_cons] using this.1, ?_⟩
      intro n
      have heq := this.2 n
      have hl : truthyClassNames (f :: fs)
          = truthyClassNamesOf f.classes ++ truthyClassNames fs := by
        simp [truthyClassNames, List.flatMap_cons]
      rw [List.foldl_cons]
      rw [heq]
      rw [hl]
      by_cases hm : n ∈ names ++ truthyClassNamesOf f.classes
          ++ truthyClassNames fs
      · have hm2 : n ∈ names
            ++ (truthyClassNamesOf f.classes ++ truthyClassNames fs) := by
          simpa [List.append_assoc] using hm
        simp [hm, hm2]
      · have hm2 : n ∉ names
            ++ (truthyClassNamesOf f.classes ++ truthyClassNames fs) := by
          intro hc
          exact hm (by simpa [List.append_assoc] using hc)
        simp [hm, hm2]

theorem buildInterfaceMap_spec (files : List SourceFileUnit) (pfx : Bool) :
    (mapKeys (buildInterfaceMap files pfx)).Nodup ∧
    ∀ n, mapGet (buildInterfaceMap files pfx) n
        = if n ∈ truthyClassNames files then some (shapeName pfx n)
          else none := by
  have := buildInterfaceMapAux_spec pfx files [] []
    (by simp [mapKeys]) (by intro n; simp [mapGet])
  refine ⟨this.1, ?_⟩
  intro n
  simpa using this.2 n

theorem mapGet_buildInterfaceMap {files : List SourceFileUnit}
    {pfx : Bool} {n : String} (h : n ∈ truthyClassNames files) :
    mapGet (buildInterfaceMap files pfx) n = some (shapeName pfx n) := by
  rw [(buildInterfaceMap_spec files pfx).2 n]
  simp [h]

theorem shapeName_ne_empty (pfx : Bool) {n : String} (h : n ≠ "") :
    shapeName pfx n ≠ "" := by
  unfold shapeName
  split
  · intro hc
    have hdata : ("I" ++ n).data = ("" : String).data :=
      congrArg String.data hc
    rw [String.data_append] at hdata
    simp [String.data] at hdata
  · exact h

theorem string_data_inj {a b : String} (h : a.data = b.data) : a = b := by
  cases a
  cases b
  exact congrArg String.mk (by simpa using h)

theorem shapeName_injective (pfx : Bool) {n1 n2 : String}
    (h : shapeName pfx n1 = shapeName pfx n2) : n1 = n2 := by
  unfold shapeName at h
  by_cases hp : pfx = true
  · rw [if_pos hp, if_pos hp] at h
    have hdata := congrArg String.data h
    rw [String.data_append, String.data_append] at hdata
    exact string_data_inj (List.append_cancel_left hdata)
  · rwa [if_neg hp, if_neg hp] at h

/-! ## Pass-1 invariants: enum collection order and contents -/

theorem addEnumsToMap_keys (es : List EnumDecl) :
    ∀ m, mapKeys (addEnumsToMap m es)
      = firstSeenFrom (mapKeys m) (truthyEnumNamesOf es) := by
  induction es with
  | nil =>
      intro m
      simp [addEnumsToMap, truthyEnumNamesOf, firstSeenFrom]
  | cons e es ih =>
      intro m
      cases hname : jsTruthyName e.name with
      | none =>
          have h1 : addEnumsToMap m (e :: es) = addEnumsToMap m es := by
            simp [addEnumsToMap, hname]
          have h2 : truthyEnumNamesOf (e :: es) = truthyEnumNamesOf es := by
            simp [truthyEnumNamesOf, List.filterMap_cons, hname]
          rw [h1, h2, ih]
      | some n0 =>
          have h1 : addEnumsToMap m (e :: es)
              = addEnumsToMap (mapSet m n0 ⟨n0, e.members⟩) es := by
            simp [addEnumsToMap, hname]
          have h2 : truthyEnumNamesOf (e :: es)
              = n0 :: truthyEnumNamesOf es := by
            simp [truthyEnumNamesOf, List.filterMap_cons, hname]
          rw [h1, h2, ih, mapKeys_mapSet]
          have h3 : firstSeenFrom (mapKeys m) (n0 :: truthyEnumNamesOf es)
              = firstSeenFrom
                  (if n0 ∈ mapKeys m then mapKeys m else mapKeys m ++ [n0])
                  (truthyEnumNamesOf es) := by
            simp [firstSeenFrom, List.foldl_cons]
          rw [h3]

theorem firstSeenFrom_append (l1 l2 : List String) (acc : List String) :
    firstSeenFrom acc (l1 ++ l2)
      = firstSeenFrom (firstSeenFrom acc l1) l2 := by
  simp [firstSeenFrom, List.foldl_append]

theorem buildEnumMap_keys (files : List SourceFileUnit) :
    mapKeys (buildEnumMap files) = firstSeen (truthyEnumNames files) := by
  have aux : ∀ (fs : List SourceFileUnit) m,
      mapKeys (fs.foldl (fun m f => addEnumsToMap m f.enums) m)
        = firstSeenFrom (mapKeys m) (truthyEnumNames fs) := by
    intro fs
    induction fs with
    | nil =>
        intro m
        simp [truthyEnumNames, firstSeenFrom]
    | cons f fs ih =>
        intro m
        have h2 : truthyEnumNames (f :: fs)
            = truthyEnumNamesOf f.enums ++ truthyEnumNames fs := by
          simp [truthyEnumNames, List.flatMap_cons]
        rw [List.foldl_cons, ih, addEnumsToMap_keys, h2,
          firstSeenFrom_append]
  have := aux files []
  simpa [buildEnumMap, firstSeen, mapKeys] using this

theorem mapSet_forall {V : Type} (P : String × V → Prop)
    (m : List (String × V)) (k : String) (v : V)
    (h : ∀ kv ∈ m, P kv) (hkv : P (k, v)) :
    ∀ kv ∈ mapSet m k v, P kv := by
  induction m with
  | nil =>
      intro kv hmem
      have : kv = (k, v) := by simpa [mapSet] using hmem
      exact this ▸ hkv
  | cons kv0 m ih =>
      intro kv hmem
      by_cases hb : kv0.1 = k
      · have hb2 : (kv0.1 == k) = true := beq_iff_eq.mpr hb
        simp only [mapSet, hb2, if_true] at hmem
        rcases List.mem_cons.mp hmem with h1 | h1
        · exact h1 ▸ hkv
        · exact h kv (List.mem_cons_of_mem _ h1)
      · have hb2 : (kv0.1 == k) = false := by
          cases hd : kv0.1 == k
          · rfl
          · exact absurd (beq_iff_eq.mp hd) hb
        simp only [mapSet, hb2, Bool.false_eq_true, if_false] at hmem
        rcases List.mem_cons.mp hmem with h1 | h1
        · exact h1 ▸ h kv0 (List.mem_cons_self _ _)
        · exact ih (fun kv2 hk => h kv2 (List.mem_cons_of_mem _ hk)) kv h1

theorem buildEnumMap_name_inv (files : List SourceFileUnit) :
    ∀ kv ∈ buildEnumMap files, kv.2.name = kv.1 := by
  have aux1 : ∀ (es : List EnumDecl) m,
      (∀ kv ∈ m, (kv.2).name = kv.1) →
      ∀ kv ∈ addEnumsToMap m es, (kv.2).name = kv.1 := by
    intro es
    induction es with
    | nil =>
        intro m h
        simpa [addEnumsToMap] using h
    | cons e es ih =>
        intro m h
        cases hname : jsTruthyName e.name with
        | none =>
            have h1 : addEnumsToMap m (e :: es) = addEnumsToMap m es := by
              simp [addEnumsToMap, hname]
            rw [h1]
            exact ih m h
        | some n0 =>
            have h1 : addEnumsToMap m (e :: es)
                = addEnumsToMap (mapSet m n0 ⟨n0, e.members⟩) es := by
              simp [addEnumsToMap, hname]
            rw [h1]
            exact ih _ (mapSet_forall _ m n0 _ h rfl)
  have aux2 : ∀ (fs : List SourceFileUnit) m,
      (∀ kv ∈ m, (kv.2).name = kv.1) →
      ∀ kv ∈ fs.foldl (fun m f => addEnumsToMap m f.enums) m,
        (kv.2).name = kv.1 := by
    intro fs
    induction fs with
    | nil =>
        intro m h
        simpa using h
    | cons f fs ih =>
        intro m h
        rw [List.foldl_cons]
        exact ih _ (aux1 f.enums m h)
  exact aux2 files [] (by intro kv h; simp at h)

theorem mapValues_names_eq_keys (m : List (String × EnumStructure))
    (h : ∀ kv ∈ m, kv.2.name = kv.1) :
    (mapValues m).map EnumStructure.name = mapKeys m := by
  simp only [mapValues, mapKeys, List.map_map]
  exact List.map_congr_left (fun kv hkv => h kv hkv)

/-! ## Pass-2 structure: shape assembly and output order -/

theorem foldl_append_flatten {α β : Type} (g : α → List β) :
    ∀ (l : List α) (init : List β),
      l.foldl (fun acc x => acc ++ g x) init = init ++ (l.map g).flatten := by
  intro l
  induction l with
  | nil => intro init; simp
  | cons x l ih =>
      intro init
      rw [List.foldl_cons, ih, List.map_cons, List.flatten_cons,
        List.append_assoc]

theorem classProperties_aux
    (enumMap : List (String × EnumStructure))
    (interfaceMap : List (String × String)) (props : List PropertyDecl) :
    ∀ acc1 acc2,
      props.foldl
        (fun acc p =>
          let s := propSignature enumMap interfaceMap p
          (if hasRelationDecorator p.decorators then acc.1
           else acc.1 ++ [s],
           acc.2 ++ [s]))
        (acc1, acc2)
      = (acc1 ++ (props.filter
            (fun p => !hasRelationDecorator p.decorators)).map
              (propSignature enumMap interfaceMap),
         acc2 ++ props.map (propSignature enumMap interfaceMap)) := by
  induction props with
  | nil => intro acc1 acc2; simp
  | cons p props ih =>
      intro acc1 acc2
      cases hr : hasRelationDecorator p.decorators with
      | true =>
          rw [List.foldl_cons]
          simp only [hr, if_true]
          rw [ih]
          simp [List.filter_cons, hr, List.append_assoc]
      | false =>
          rw [List.foldl_cons]
          simp only [hr, Bool.false_eq_true, if_false]
          rw [ih]
          simp [List.filter_cons, hr, List.append_assoc]

theorem classProperties_eq
    (enumMap : List (String × EnumStructure))
    (interfaceMap : List (String × String)) (props : List PropertyDecl) :
    classProperties enumMap interfaceMap props
      = ((props.filter (fun p => !hasRelationDecorator p.decorators)).map
           (propSignature enumMap interfaceMap),
         props.map (propSignature enumMap interfaceMap)) := by
  have := classProperties_aux enumMap interfaceMap props [] []
  simpa [classProperties] using this

theorem buildClassInterfaces_some
    (enumMap : List (String × EnumStructure))
    (interfaceMap : List (String × String)) (c : ClassDecl) {n : String}
    (h : jsTruthyName c.name = some n) :
    buildClassInterfaces enumMap interfaceMap c
      = [⟨(mapGet interfaceMap n).getD "",
            (c.properties.filter
              (fun p => !hasRelationDecorator p.decorators)).map
                (propSignature enumMap interfaceMap)⟩,
         ⟨(mapGet interfaceMap n).getD "" ++ "Data",
            c.properties.map (propSignature enumMap interfaceMap)⟩] := by
  simp [buildClassInterfaces, h, classProperties_eq]

theorem buildClassInterfaces_none
    (enumMap : List (String × EnumStructure))
    (interfaceMap : List (String × String)) (c : ClassDecl)
    (h : jsTruthyName c.name = none) :
    buildClassInterfaces enumMap interfaceMap c = [] := by
  simp [buildClassInterfaces, h]

theorem allInterfacesOf_eq (files : List SourceFileUnit) (pfx : Bool) :
    allInterfacesOf files pfx
      = (files.map (fun f =>
          (f.classes.map
            (buildClassInterfaces (buildEnumMap files)
              (buildInterfaceMap files pfx))).flatten)).flatten := by
  have aux : ∀ (fs : List SourceFileUnit)
      (acc : List InterfaceStructure),
      fs.foldl
        (fun acc f =>
          f.classes.foldl
            (fun acc c =>
              acc ++ buildClassInterfaces (buildEnumMap files)
                (buildInterfaceMap files pfx) c)
            acc)
        acc
      = acc ++ (fs.map (fun f =>
          (f.classes.map
            (buildClassInterfaces (buildEnumMap files)
              (buildInterfaceMap files pfx))).flatten)).flatten := by
    intro fs
    induction fs with
    | nil => intro acc; simp
    | cons f fs ih =>
        intro acc
        rw [List.foldl_cons, foldl_append_flatten, ih, List.map_cons,
          List.flatten_cons, List.append_assoc]
  have := aux files []
  simpa [allInterfacesOf] using this

theorem buildClassInterfaces_length
    (enumMap : List (String × EnumStructure))
    (interfaceMap : List (String × String)) (c : ClassDecl) :
    (buildClassInterfaces enumMap interfaceMap c).length
      = if (jsTruthyName c.name).isSome then 2 else 0 := by
  cases h : jsTruthyName c.name with
  | none => simp [buildClassInterfaces_none enumMap interfaceMap c h]
  | some n => simp [buildClassInterfaces_some enumMap interfaceMap c h]

theorem flatten_classes_length
    (enumMap : List (String × EnumStructure))
    (interfaceMap : List (String × String)) (cs : List ClassDecl) :
    ((cs.map (buildClassInterfaces enumMap interfaceMap)).flatten).length
      = 2 * (truthyClassNamesOf cs).length := by
  induction cs with
  | nil => simp [truthyClassNamesOf]
  | cons c cs ih =>
      rw [List.map_cons, List.flatten_cons, List.length_append, ih,
        buildClassInterfaces_length]
      cases h : jsTruthyName c.name with
      | none =>
          simp [truthyClassNamesOf, List.filterMap_cons, h]
      | some n =>
          have : truthyClassNamesOf (c :: cs)
              = n :: truthyClassNamesOf cs := by
            simp [truthyClassNamesOf, List.filterMap_cons, h]
          rw [this]
          simp
          omega

theorem flatten_files_length
    (enumMap : List (String × EnumStructure))
    (interfaceMap : List (String × String))
    (fs : List SourceFileUnit) :
    ((fs.map (fun f =>
        (f.classes.map
          (buildClassInterfaces enumMap interfaceMap)).flatten)).flatten).length
      = 2 * (truthyClassNames fs).length := by
  induction fs with
  | nil => simp [truthyClassNames]
  | cons f fs ih =>
      rw [List.map_cons, List.flatten_cons, List.length_append, ih,
        flatten_classes_length]
      have h2 : truthyClassNames (f :: fs)
          = truthyClassNamesOf f.classes ++ truthyClassNames fs := by
        simp [truthyClassNames, List.flatMap_cons]
      rw [h2, List.length_append]
      omega

theorem allInterfacesOf_length (files : List SourceFileUnit)
    (pfx : Bool) :
    (allInterfacesOf files pfx).length
      = 2 * (truthyClassNames files).length := by
  rw [allInterfacesOf_eq, flatten_files_length]

theorem jsTruthyName_ne_empty {o : Option String} {n : String}
    (h : jsTruthyName o = some n) : n ≠ "" := by
  cases o with
  | none => simp [jsTruthyName] at h
  | some s =>
      by_cases hs : s = ""
      · simp [jsTruthyName, hs] at h
      · simp only [jsTruthyName, hs, if_false] at h
        cases h
        exact hs

theorem mem_truthyClassNames_ne_empty {files : List SourceFileUnit}
    {n : String} (h : n ∈ truthyClassNames files) : n ≠ "" := by
  simp only [truthyClassNames, List.mem_flatMap] at h
  rcases h with ⟨f, _, hf⟩
  simp only [truthyClassNamesOf, List.mem_filterMap] at hf
  rcases hf with ⟨c, _, hc⟩
  exact jsTruthyName_ne_empty hc

theorem mapGet_buildInterfaceMap_ne_empty {files : List SourceFileUnit}
    {pfx : Bool} {k v : String}
    (h : mapGet (buildInterfaceMap files pfx) k = some v) : v ≠ "" := by
  have hs := (buildInterfaceMap_spec files pfx).2 k
  rw [h] at hs
  by_cases hm : k ∈ truthyClassNames files
  · rw [if_pos hm] at hs
    cases hs
    exact shapeName_ne_empty pfx (mem_truthyClassNames_ne_empty hm)
  · rw [if_neg hm] at hs
    cases hs

theorem count_shape_names_classes
    (enumMap : List (String × EnumStructure))
    (interfaceMap : List (String × String)) (pfx : Bool) (n : String)
    (cs : List ClassDecl)
    (h : ∀ m ∈ truthyClassNamesOf cs,
        mapGet interfaceMap m = some (shapeName pfx m)) :
    (truthyClassNamesOf cs).count n ≤
      (((cs.map (buildClassInterfaces enumMap interfaceMap)).flatten).map
        (fun i => i.name)).count (shapeName pfx n) := by
  induction cs with
  | nil => simp [truthyClassNamesOf]
  | cons c cs ih =>
      cases hname : jsTruthyName c.name with
      | none =>
          have h2 : truthyClassNamesOf (c :: cs)
              = truthyClassNamesOf cs := by
            simp [truthyClassNamesOf, List.filterMap_cons, hname]
          rw [h2] at h ⊢
          rw [List.map_cons, List.flatten_cons,
            buildClassInterfaces_none enumMap interfaceMap c hname]
          exact ih h
      | some m =>
          have h2 : truthyClassNamesOf (c :: cs)
              = m :: truthyClassNamesOf cs := by
            simp [truthyClassNamesOf, List.filterMap_cons, hname]
          rw [h2] at h ⊢
          have hm := h m (List.mem_cons_self _ _)
          have htail : ∀ m2 ∈ truthyClassNamesOf cs,
              mapGet interfaceMap m2 = some (shapeName pfx m2) :=
            fun m2 hk => h m2 (List.mem_cons_of_mem _ hk)
          rw [List.map_cons, List.flatten_cons,
            buildClassInterfaces_some enumMap interfaceMap c hname,
            hm]
          rw [List.map_append, List.count_append]
          have hcount := ih htail
          by_cases hmn : m = n
          · subst hmn
            simp only [Option.getD_some, List.map_cons, List.map_nil,
              List.count_cons, List.count_nil, beq_self_eq_true, if_true]
            omega
          · have hne : (m == n) = false := by
              cases hd : m == n
              · rfl
              · exact absurd (beq_iff_eq.mp hd) hmn
            simp only [Option.getD_some, List.count_cons, hne,
              Bool.false_eq_true, if_false]
            omega

theorem count_shape_names_files
    (enumMap : List (String × EnumStructure))
    (interfaceMap : List (String × String)) (pfx : Bool) (n : String)
    (fs : List SourceFileUnit)
    (h : ∀ m ∈ truthyClassNames fs,
        mapGet interfaceMap m = some (shapeName pfx m)) :
    (truthyClassNames fs).count n ≤
      (((fs.map (fun f =>
          (f.classes.map
            (buildClassInterfaces enumMap interfaceMap)).flatten)).flatten).map
        (fun i => i.name)).count (shapeName pfx n) := by
  induction fs with
  | nil => simp [truthyClassNames]
  | cons f fs ih =>
      have h2 : truthyClassNames (f :: fs)
          = truthyClassNamesOf f.classes ++ truthyClassNames fs := by
        simp [truthyClassNames, List.flatMap_cons]
      rw [h2] at h ⊢
      have hhead : ∀ m ∈ truthyClassNamesOf f.classes,
          mapGet interfaceMap m = some (shapeName pfx m) :=
        fun m hk => h m (List.mem_append.mpr (Or.inl hk))
      have htail : ∀ m ∈ truthyClassNames fs,
          mapGet interfaceMap m = some (shapeName pfx m) :=
        fun m hk => h m (List.mem_append.mpr (Or.inr hk))
      rw [List.map_cons, List.flatten_cons, List.map_append,
        List.count_append, List.count_append]
      have := count_shape_names_classes enumMap interfaceMap pfx n
        f.classes hhead
      have := ih htail
      omega

/-! ## Import-set membership (per-class-file variant) -/

theorem setAdd_mem (l : List String) (x y : String) :
    y ∈ setAdd l x ↔ y ∈ l ∨ y = x := by
  unfold setAdd
  by_cases h : x ∈ l
  · simp only [h, if_true]
    constructor
    · exact Or.inl
    · rintro (hy | hy)
      · exact hy
      · exact hy ▸ h
  · simp [h, List.mem_append]

namespace PerFile

theorem importsInner_mem (interfaceMap : List (String × String))
    (interfaceName : String) (tokens : List String) :
    ∀ (acc : List String) (x : String),
      x ∈ tokens.foldl
        (fun acc typeName =>
          let cleanType := cleanToken typeName
          if mapHas interfaceMap cleanType && cleanType != interfaceName
          then setAdd acc cleanType
          else acc)
        acc
      ↔ x ∈ acc
        ∨ (mapHas interfaceMap x = true ∧ x ≠ interfaceName
            ∧ ∃ t ∈ tokens, cleanToken t = x) := by
  induction tokens with
  | nil =>
      intro acc x
      simp
  | cons t tokens ih =>
      intro acc x
      simp only [List.foldl_cons]
      by_cases hcp : mapHas interfaceMap (cleanToken t) = true
          ∧ cleanToken t ≠ interfaceName
      · have hc : (mapHas interfaceMap (cleanToken t)
            && (cleanToken t != interfaceName)) = true := by
          rw [Bool.and_eq_true]
          exact ⟨hcp.1, bne_iff_ne.mpr hcp.2⟩
        rw [if_pos hc, ih (setAdd acc (cleanToken t)) x, setAdd_mem]
        constructor
        · rintro ((hx | hx) | ⟨h1, h2, t2, ht2, hct⟩)
          · exact Or.inl hx
          · subst hx
            exact Or.inr ⟨hcp.1, hcp.2, t, List.mem_cons_self _ _, rfl⟩
          · exact Or.inr ⟨h1, h2, t2, List.mem_cons_of_mem _ ht2, hct⟩
        · rintro (hx | ⟨h1, h2, t2, ht2, hct⟩)
          · exact Or.inl (Or.inl hx)
          · rcases List.mem_cons.mp ht2 with ht | ht
            · subst ht
              exact Or.inl (Or.inr hct.symm)
            · exact Or.inr ⟨h1, h2, t2, ht, hct⟩
      · have hc : (mapHas interfaceMap (cleanToken t)
            && (cleanToken t != interfaceName)) = false := by
          cases hA : mapHas interfaceMap (cleanToken t)
          · simp [hA]
          · have heq : cleanToken t = interfaceName := by
              by_contra hne
              exact hcp ⟨hA, hne⟩
            simp [hA, heq]
        rw [if_neg (by simp [hc]), ih acc x]
        constructor
        · rintro (hx | ⟨h1, h2, t2, ht2, hct⟩)
          · exact Or.inl hx
          · exact Or.inr ⟨h1, h2, t2, List.mem_cons_of_mem _ ht2, hct⟩
        · rintro (hx | ⟨h1, h2, t2, ht2, hct⟩)
          · exact Or.inl hx
          · rcases List.mem_cons.mp ht2 with ht | ht
            · subst ht
              refine absurd ⟨?_, ?_⟩ hcp
              · rw [hct]
                exact h1
              · rw [hct]
                exact h2
            · exact Or.inr ⟨h1, h2, t2, ht, hct⟩

theorem computeImports_mem (interfaceMap : List (String × String))
    (interfaceName : String) (props : List PropertySignature)
    (x : String) :
    x ∈ computeImports interfaceMap interfaceName props
      ↔ mapHas interfaceMap x = true ∧ x ≠ interfaceName
          ∧ ∃ p ∈ props, ∃ t ∈ jsMatchAll p.type, cleanToken t = x := by
  have aux : ∀ (ps : List PropertySignature) (acc : List String),
      x ∈ ps.foldl
        (fun acc prop =>
          (jsMatchAll prop.type).foldl
            (fun acc typeName =>
              let cleanType := cleanToken typeName
              if mapHas interfaceMap cleanType
                  && cleanType != interfaceName
              then setAdd acc cleanType
              else acc)
            acc)
        acc
      ↔ x ∈ acc
        ∨ (mapHas interfaceMap x = true ∧ x ≠ interfaceName
            ∧ ∃ p ∈ ps, ∃ t ∈ jsMatchAll p.type, cleanToken t = x) := by
    intro ps
    induction ps with
    | nil =>
        intro acc
        simp
    | cons p ps ih =>
        intro acc
        simp only [List.foldl_cons]
        rw [ih, importsInner_mem interfaceMap interfaceName
          (jsMatchAll p.type) acc x]
        constructor
        · rintro ((hx | ⟨h1, h2, t2, ht2, hct⟩) | ⟨h1, h2, p2, hp2, t2, ht2, hct⟩)
          · exact Or.inl hx
          · exact Or.inr ⟨h1, h2, p, List.mem_cons_self _ _, t2, ht2, hct⟩
          · exact Or.inr ⟨h1, h2, p2, List.mem_cons_of_mem _ hp2, t2, ht2, hct⟩
        · rintro (hx | ⟨h1, h2, p2, hp2, t2, ht2, hct⟩)
          · exact Or.inl (Or.inl hx)
          · rcases List.mem_cons.mp hp2 with hp | hp
            · subst hp
              exact Or.inl (Or.inr ⟨h1, h2, t2, ht2, hct⟩)
            · exact Or.inr ⟨h1, h2, p2, hp, t2, ht2, hct⟩
  have := aux props []
  simpa [computeImports] using this

end PerFile

theorem setAdd_nodup (l : List String) (x : String) (h : l.Nodup) :
    (setAdd l x).Nodup := by
  unfold setAdd
  by_cases hx : x ∈ l
  · simpa [hx] using h
  · simp only [hx, if_false]
    rw [List.nodup_append]
    refine ⟨h, List.nodup_singleton x, ?_⟩
    intro a ha hb
    simp only [List.mem_singleton] at hb
    exact hx (hb ▸ ha)

namespace PerFile

theorem importsInner_nodup (interfaceMap : List (String × String))
    (interfaceName : String) (tokens : List String) :
    ∀ (acc : List String), acc.Nodup →
      (tokens.foldl
        (fun acc typeName =>
          let cleanType := cleanToken typeName
          if mapHas interfaceMap cleanType && cleanType != interfaceName
          then setAdd acc cleanType
          else acc)
        acc).Nodup := by
  induction tokens with
  | nil =>
      intro acc h
      simpa using h
  | cons t tokens ih =>
      intro acc h
      simp only [List.foldl_cons]
      cases hc : (mapHas interfaceMap (cleanToken t)
          && (cleanToken t != interfaceName)) with
      | true =>
          rw [if_pos rfl]
          exact ih (setAdd acc (cleanToken t)) (setAdd_nodup acc _ h)
      | false =>
          rw [if_neg (by simp)]
          exact ih acc h

theorem computeImports_nodup (interfaceMap : List (String × String))
    (interfaceName : String) (props : List PropertySignature) :
    (computeImports interfaceMap interfaceName props).Nodup := by
  have aux : ∀ (ps : List PropertySignature) (acc : List String),
      acc.Nodup →
      (ps.foldl
        (fun acc prop =>
          (jsMatchAll prop.type).foldl
            (fun acc typeName =>
              let cleanType := cleanToken typeName
              if mapHas interfaceMap cleanType
                  && cleanType != interfaceName
              then setAdd acc cleanType
              else acc)
            acc)
        acc).Nodup := by
    intro ps
    induction ps with
    | nil =>
        intro acc h
        simpa using h
    | cons p ps ih =>
        intro acc h
        simp only [List.foldl_cons]
        exact ih _ (importsInner_nodup interfaceMap interfaceName
          (jsMatchAll p.type) acc h)
  exact aux props [] List.nodup_nil

end PerFile

/-! ## The claims -/

/-- Claim C1 (amended): for a relation-annotated property, the opaque
marker `any` is produced exactly when the type resolution finds no
underlying symbol at all — in the eager branch when neither the array
element nor the type has a symbol name, in the lazy branch when the first
type argument has no symbol name.  When a symbol name is found but has no
SymbolTable entry, the output is not the opaque marker: the original
entity name is passed through with the "Data" suffix — with the
collection wrapper re-applied in the eager array case and the deferred
wrapper re-applied in the lazy case (`Promise<NameData>`).  Generation is
total: every run emits exactly two shapes per truthy-named class,
independent of resolution outcomes. -/
theorem C1_unresolved_relation_marker :
    (∀ (enumMap : List (String × EnumStructure))
        (interfaceMap : List (String × String)) (p : PropertyDecl),
      hasRelationDecorator p.decorators = true →
      (usesLazyBranch p = false → eagerRelatedName p.type = none →
        computePropType enumMap interfaceMap p = "any")
      ∧ (∀ node a l, p.typeNode = some node →
          jsIncludes node.text "Promise" = true →
          node.typeArgs = a :: l → a.symbolName = none →
          computePropType enumMap interfaceMap p = "any")
      ∧ (usesLazyBranch p = false →
          ∀ n, eagerRelatedName p.type = some n →
          mapGet interfaceMap n = none →
          computePropType enumMap interfaceMap p
            = if p.type.isArr then n ++ "Data[]" else n ++ "Data")
      ∧ (∀ node a l n, p.typeNode = some node →
          jsIncludes node.text "Promise" = true →
          node.typeArgs = a :: l → a.symbolName = some n →
          mapGet interfaceMap n = none →
          computePropType enumMap interfaceMap p
            = "Promise<" ++ n ++ "Data>"))
    ∧ ∀ (files : List SourceFileUnit) (pfx : Bool),
        (allInterfacesOf files pfx).length
          = 2 * (truthyClassNames files).length := by
  constructor
  · intro enumMap interfaceMap p hrel
    refine ⟨?_, ?_, ?_, ?_⟩
    · intro hlazy hnone
      cases hnode : p.typeNode with
      | none =>
          simp [computePropType, hrel, hnode, eagerRewrite, hnone]
      | some node =>
          have hinc : jsIncludes node.text "Promise" = false := by
            simpa [usesLazyBranch, hnode] using hlazy
          simp [computePropType, hrel, hnode, hinc, eagerRewrite, hnone]
    · intro node a l hnode hinc hargs hsym
      simp [computePropType, hrel, hnode, hinc, hargs, hsym]
    · intro hlazy n hsome hget
      cases hnode : p.typeNode with
      | none =>
          simp [computePropType, hrel, hnode, eagerRewrite, hsome, hget,
            jsOrString]
      | some node =>
          have hinc : jsIncludes node.text "Promise" = false := by
            simpa [usesLazyBranch, hnode] using hlazy
          simp [computePropType, hrel, hnode, hinc, eagerRewrite, hsome,
            hget, jsOrString]
    · intro node a l n hnode hinc hargs hsym hget
      simp [computePropType, hrel, hnode, hinc, hargs, hsym, hget,
        jsOrString]
  · exact allInterfacesOf_length

/-- Witness for C1: a relation property with no resolvable symbol is
rewritten to the opaque marker. -/
theorem C1_marker_witness :
    computePropType [] []
      ⟨"rel", ["OneToOne"], false, none,
        ⟨"Foo", none, false, none, false⟩⟩ = "any" :=
  ((C1_unresolved_relation_marker.1 [] []
      ⟨"rel", ["OneToOne"], false, none,
        ⟨"Foo", none, false, none, false⟩⟩ (by decide)).1
    (by decide) (by decide))

/-- Counterexample to C1 as stated: a many-to-one property whose declared
type resolves to the entity name "External", which has no SymbolTable
entry.  The claim demands the opaque marker; the code emits
"ExternalData", a passthrough of the original entity name. -/
theorem C1_counterexample :
    computePropType [] [("Order", "IOrder")]
      ⟨"ext", ["ManyToOne"], false, some ⟨"External", []⟩,
        ⟨"External", some "External", false, none, false⟩⟩
      = "ExternalData"
    ∧ mapHas [("Order", "IOrder")] "External" = false
    ∧ "ExternalData" ≠ "any" := by
  refine ⟨rfl, rfl, ?_⟩
  decide

/-- Claim C2 (amended): in per-class-file mode, the computed import set is
the duplicate-free collection of the symbol table's KEYS — the original
class names, not the generated shape names — that occur among the
regex-extracted, wrapper-stripped identifier tokens of the shape's
properties' output type texts, excluding any token equal to the shape's
own name.  (The claim as frozen says shape names; the code tests the
stripped token against the table's keys, so with prefixing on the shape
names are never matched.) -/
theorem C2_perFile_imports (interfaceMap : List (String × String))
    (interfaceName : String) (props : List PropertySignature) :
    (PerFile.computeImports interfaceMap interfaceName props).Nodup
    ∧ ∀ x, x ∈ PerFile.computeImports interfaceMap interfaceName props
        ↔ mapHas interfaceMap x = true ∧ x ≠ interfaceName
            ∧ ∃ p ∈ props, ∃ t ∈ PerFile.jsMatchAll p.type,
                PerFile.cleanToken t = x :=
  ⟨PerFile.computeImports_nodup interfaceMap interfaceName props,
   fun x => PerFile.computeImports_mem interfaceMap interfaceName props x⟩

/-- Counterexample to C2 as stated: with prefixing on, the per-class-file
pipeline generates for class `Order` (relation `customer` targeting
`Profile`) the interface `IOrder` with property type text "IProfile".
"IProfile" is a known shape name produced by the Symbol Table Builder, it
occurs (wrapper-stripped) in the output type text, and it is not the
shape's own name — yet the computed import set is empty, because the code
matches tokens against the table's keys (class names), not its values. -/
theorem C2_counterexample :
    PerFile.buildClassOutput
        (buildInterfaceMap
          [⟨[], [⟨some "Order",
              [⟨"customer", ["ManyToOne"], false, some ⟨"Profile", []⟩,
                ⟨"Profile", some "Profile", false, none, false⟩⟩]⟩,
            ⟨some "Profile", []⟩]⟩] true)
        ⟨some "Order",
          [⟨"customer", ["ManyToOne"], false, some ⟨"Profile", []⟩,
            ⟨"Profile", some "Profile", false, none, false⟩⟩]⟩
      = [(⟨"IOrder", [⟨"customer", "IProfile", false⟩]⟩, [])]
    ∧ "IProfile" ∈ mapValues (buildInterfaceMap
          [⟨[], [⟨some "Order",
              [⟨"customer", ["ManyToOne"], false, some ⟨"Profile", []⟩,
                ⟨"Profile", some "Profile", false, none, false⟩⟩]⟩,
            ⟨some "Profile", []⟩]⟩] true)
    ∧ PerFile.jsMatchAll "IProfile" = ["IProfile"]
    ∧ PerFile.cleanToken "IProfile" = "IProfile"
    ∧ "IProfile" ≠ "IOrder" := by
  refine ⟨rfl, by decide, rfl, rfl, by decide⟩

/-- Claim C3 (amended): for a relation-annotated property whose declared
type node contains the deferred-value wrapper and carries a first type
argument, the output re-applies the wrapper around the mapped shape name
with the "Data" suffix when the argument's symbol maps in the symbol
table, and is the opaque marker when the argument has no symbol at all.
When the argument's symbol resolves but has no SymbolTable entry, the
output is neither: the original entity name is passed through inside the
re-applied wrapper, as `Promise<NameData>`. -/
theorem C3_lazy_relation_rewrite
    (files : List SourceFileUnit) (pfx : Bool)
    (enumMap : List (String × EnumStructure)) (p : PropertyDecl)
    (node : TypeNodeInfo) (a : TypeRef) (l : List TypeRef)
    (hrel : hasRelationDecorator p.decorators = true)
    (hnode : p.typeNode = some node)
    (hprom : jsIncludes node.text "Promise" = true)
    (hargs : node.typeArgs = a :: l) :
    (∀ n, a.symbolName = some n →
      ∀ i, mapGet (buildInterfaceMap files pfx) n = some i →
        computePropType enumMap (buildInterfaceMap files pfx) p
          = "Promise<" ++ i ++ "Data>")
    ∧ (a.symbolName = none →
        computePropType enumMap (buildInterfaceMap files pfx) p
          = "any")
    ∧ (∀ n, a.symbolName = some n →
        mapGet (buildInterfaceMap files pfx) n = none →
        computePropType enumMap (buildInterfaceMap files pfx) p
          = "Promise<" ++ n ++ "Data>") := by
  refine ⟨?_, ?_, ?_⟩
  · intro n hsym i hget
    have hne : i ≠ "" := mapGet_buildInterfaceMap_ne_empty hget
    simp [computePropType, hrel, hnode, hprom, hargs, hsym, hget,
      jsOrString, hne]
  · intro hsym
    simp [computePropType, hrel, hnode, hprom, hargs, hsym]
  · intro n hsym hget
    simp [computePropType, hrel, hnode, hprom, hargs, hsym, hget,
      jsOrString]

/-- Witness for C3 (Scenario C): `customer: Promise<Customer>` annotated
many-to-one becomes `Promise<ICustomerData>` with prefixing on. -/
theorem C3_lazy_witness :
    computePropType []
      (buildInterfaceMap [⟨[], [⟨some "Customer", []⟩]⟩] true)
      ⟨"customer", ["ManyToOne"], false,
        some ⟨"Promise<Customer>", [⟨some "Customer"⟩]⟩,
        ⟨"Promise<Customer>", none, false, none, false⟩⟩
      = "Promise<ICustomerData>" :=
  ((C3_lazy_relation_rewrite [⟨[], [⟨some "Customer", []⟩]⟩] true []
      ⟨"customer", ["ManyToOne"], false,
        some ⟨"Promise<Customer>", [⟨some "Customer"⟩]⟩,
        ⟨"Promise<Customer>", none, false, none, false⟩⟩
      ⟨"Promise<Customer>", [⟨some "Customer"⟩]⟩ ⟨some "Customer"⟩ []
      (by decide) rfl (by decide) rfl).1
    "Customer" rfl "ICustomer" (by decide)).trans (by decide)

/-- Counterexample to C3 as stated: a many-to-one property typed
`Promise<External>` where the wrapped target's symbol resolves to
"External" but the symbol table (built from a unit declaring only
`Order`) has no entry for it.  The claim's dichotomy demands either the
wrapper around a mapped shape name or the opaque marker; the code emits
"Promise<ExternalData>" — a passthrough of the original entity name,
neither the opaque marker nor a mapped shape name (which would have been
"Promise<IExternalData>" with prefixing on). -/
theorem C3_counterexample :
    computePropType []
      (buildInterfaceMap [⟨[], [⟨some "Order", []⟩]⟩] true)
      ⟨"customer", ["ManyToOne"], false,
        some ⟨"Promise<External>", [⟨some "External"⟩]⟩,
        ⟨"Promise<External>", none, false, none, false⟩⟩
      = "Promise<ExternalData>"
    ∧ mapHas (buildInterfaceMap [⟨[], [⟨some "Order", []⟩]⟩] true)
        "External" = false
    ∧ "Promise<ExternalData>" ≠ "any"
    ∧ "Promise<ExternalData>" ≠ "Promise<IExternalData>" := by
  refine ⟨rfl, rfl, by decide, by decide⟩

/-- Claim C4 (amended): for an eager relation property of array type
whose element resolves to a symbol with a symbol-table entry, the output
is the mapped shape name with the "Data" suffix and the re-applied
collection wrapper (never a bare singular reference); when the element
has no symbol, however, the output is the bare opaque marker without the
collection wrapper. -/
theorem C4_eager_collection_rewrite
    (files : List SourceFileUnit) (pfx : Bool)
    (enumMap : List (String × EnumStructure)) (p : PropertyDecl)
    (e : TypeRef)
    (hrel : hasRelationDecorator p.decorators = true)
    (hlazy : usesLazyBranch p = false)
    (harr : p.type.isArr = true)
    (helem : p.type.arrayElement = some e) :
    (∀ n i, e.symbolName = some n →
        mapGet (buildInterfaceMap files pfx) n = some i →
        computePropType enumMap (buildInterfaceMap files pfx) p
          = i ++ "Data[]")
    ∧ (e.symbolName = none →
        computePropType enumMap (buildInterfaceMap files pfx) p
          = "any") := by
  constructor
  · intro n i hsym hget
    have hne : i ≠ "" := mapGet_buildInterfaceMap_ne_empty hget
    cases hnode : p.typeNode with
    | none =>
        simp [computePropType, hrel, hnode, eagerRewrite,
          eagerRelatedName, helem, hsym, hget, jsOrString, hne, harr]
    | some node =>
        have hinc : jsIncludes node.text "Promise" = false := by
          simpa [usesLazyBranch, hnode] using hlazy
        simp [computePropType, hrel, hnode, hinc, eagerRewrite,
          eagerRelatedName, helem, hsym, hget, jsOrString, hne, harr]
  · intro hsym
    cases hnode : p.typeNode with
    | none =>
        simp [computePropType, hrel, hnode, eagerRewrite,
          eagerRelatedName, helem, hsym]
    | some node =>
        have hinc : jsIncludes node.text "Promise" = false := by
          simpa [usesLazyBranch, hnode] using hlazy
        simp [computePropType, hrel, hnode, hinc, eagerRewrite,
          eagerRelatedName, helem, hsym]

/-- Witness for C4 (Scenario B): `members: Employee[]` annotated
one-to-many becomes `IEmployeeData[]` with prefixing on. -/
theorem C4_collection_witness :
    computePropType []
      (buildInterfaceMap [⟨[], [⟨some "Employee", []⟩]⟩] true)
      ⟨"members", ["OneToMany"], false, some ⟨"Employee[]", []⟩,
        ⟨"Employee[]", none, false, some ⟨some "Employee"⟩, true⟩⟩
      = "IEmployeeData[]" :=
  ((C4_eager_collection_rewrite [⟨[], [⟨some "Employee", []⟩]⟩] true []
      ⟨"members", ["OneToMany"], false, some ⟨"Employee[]", []⟩,
        ⟨"Employee[]", none, false, some ⟨some "Employee"⟩, true⟩⟩
      ⟨some "Employee"⟩ (by decide) rfl rfl rfl).1
    "Employee" "IEmployee" rfl (by decide)).trans (by decide)

/-- Counterexample to C4 as stated: a one-to-many property of array type
whose element has no resolvable symbol.  The claim demands the collection
wrapper re-applied around the opaque element type; the code emits the
bare marker "any", which is not a collection of anything. -/
theorem C4_counterexample :
    computePropType [] []
      ⟨"members", ["OneToMany"], false, some ⟨"string[]", []⟩,
        ⟨"string[]", none, false, some ⟨none⟩, true⟩⟩ = "any"
    ∧ ¬ ∃ s : String, "any" = s ++ "[]" := by
  refine ⟨rfl, ?_⟩
  rintro ⟨s, hs⟩
  have hd := congrArg String.data hs
  rw [String.data_append] at hd
  have h3 : "any".data.reverse = ("[]".data).reverse ++ s.data.reverse := by
    rw [← List.reverse_append, hd]
  have h2 : (['y', 'n', 'a'] : List Char)
      = ']' :: '[' :: s.data.reverse := h3
  injection h2 with hy htl
  exact absurd hy (by decide)

/-- Claim C5: for every class with a truthy name whose shape name is in
the symbol table, exactly the two shapes `iname` and `iname ++ "Data"`
are emitted; the plain shape holds exactly the signatures of the
non-relation properties and the full shape the signatures of all
properties, both in declaration order; each signature keeps the
property's name and optional flag unchanged. -/
theorem C5_two_shapes_per_class
    (enumMap : List (String × EnumStructure))
    (interfaceMap : List (String × String)) (c : ClassDecl)
    (className iname : String)
    (hname : c.name = some className)
    (hne : className ≠ "")
    (hget : mapGet interfaceMap className = some iname) :
    buildClassInterfaces enumMap interfaceMap c
      = [⟨iname,
          (c.properties.filter
            (fun p => !hasRelationDecorator p.decorators)).map
              (propSignature enumMap interfaceMap)⟩,
         ⟨iname ++ "Data",
          c.properties.map (propSignature enumMap interfaceMap)⟩]
    ∧ ∀ p : PropertyDecl,
        (propSignature enumMap interfaceMap p).name = p.name
        ∧ (propSignature enumMap interfaceMap p).hasQuestionToken
            = p.hasQuestionToken := by
  have htruthy : jsTruthyName c.name = some className := by
    simp [jsTruthyName, hname, hne]
  constructor
  · rw [buildClassInterfaces_some enumMap interfaceMap c htruthy, hget]
    simp
  · intro p
    exact ⟨rfl, rfl⟩

/-- Witness for C5 (Scenario A): class `User` with `id: number` and
many-to-one `profile: Profile`, prefixing on. -/
theorem C5_shapes_witness :
    buildClassInterfaces [] [("User", "IUser"), ("Profile", "IProfile")]
      ⟨some "User",
        [⟨"id", [], false, some ⟨"number", []⟩,
          ⟨"number", none, false, none, false⟩⟩,
         ⟨"profile", ["ManyToOne"], false, some ⟨"Profile", []⟩,
          ⟨"Profile", some "Profile", false, none, false⟩⟩]⟩
      = [⟨"IUser", [⟨"id", "number", false⟩]⟩,
         ⟨"IUserData",
          [⟨"id", "number", false⟩,
           ⟨"profile", "IProfileData", false⟩]⟩] := by
  have h := (C5_two_shapes_per_class []
    [("User", "IUser"), ("Profile", "IProfile")]
    ⟨some "User",
      [⟨"id", [], false, some ⟨"number", []⟩,
        ⟨"number", none, false, none, false⟩⟩,
       ⟨"profile", ["ManyToOne"], false, some ⟨"Profile", []⟩,
        ⟨"Profile", some "Profile", false, none, false⟩⟩]⟩
    "User" "IUser" rfl (by decide) rfl).1
  rw [h]
  decide

/-- Claim C6: the symbol table built in pass 1 is total over the truthy
class names (each maps to its computed shape name), has no duplicate
keys, holds no entry for any other name, and the shape-name computation
is injective, so distinct class names never collide. -/
theorem C6_symbol_table_total_injective (files : List SourceFileUnit)
    (pfx : Bool) :
    (mapKeys (buildInterfaceMap files pfx)).Nodup
    ∧ (∀ n, n ∈ truthyClassNames files →
        mapGet (buildInterfaceMap files pfx) n = some (shapeName pfx n))
    ∧ (∀ n, n ∉ truthyClassNames files →
        mapGet (buildInterfaceMap files pfx) n = none)
    ∧ ∀ n1 n2, n1 ≠ n2 → shapeName pfx n1 ≠ shapeName pfx n2 := by
  have hs := buildInterfaceMap_spec files pfx
  refine ⟨hs.1, ?_, ?_, ?_⟩
  · intro n hn
    rw [hs.2 n, if_pos hn]
  · intro n hn
    rw [hs.2 n, if_neg hn]
  · intro n1 n2 hne hc
    exact hne (shapeName_injective pfx hc)

/-- Witness for C6: a concrete table lookup and a concrete non-collision
obtained from the bijection theorem. -/
theorem C6_table_witness :
    mapGet (buildInterfaceMap [⟨[], [⟨some "User", []⟩]⟩] true) "User"
      = some "IUser"
    ∧ shapeName true "User" ≠ shapeName true "Team" := by
  constructor
  · exact ((C6_symbol_table_total_injective
      [⟨[], [⟨some "User", []⟩]⟩] true).2.1 "User"
        (by decide)).trans (by decide)
  · exact (C6_symbol_table_total_injective
      [⟨[], [⟨some "User", []⟩]⟩] true).2.2.2 "User" "Team" (by decide)

/-- Claim C7: the emitted statement sequence is all enum structures (in
first-seen name order across the input traversal) followed by all
interface structures (flattened in file order and class declaration
order), and every class contributes either nothing or its plain shape
immediately followed by its "Data" shape. -/
theorem C7_output_order (files : List SourceFileUnit) (pfx : Bool) :
    outputStatements files pfx
      = (mapValues (buildEnumMap files)).map OutputStatement.enumStmt
        ++ ((files.map (fun f =>
            (f.classes.map
              (buildClassInterfaces (buildEnumMap files)
                (buildInterfaceMap files pfx))).flatten)).flatten).map
          OutputStatement.interfaceStmt
    ∧ (mapValues (buildEnumMap files)).map EnumStructure.name
        = firstSeen (truthyEnumNames files)
    ∧ ∀ (em : List (String × EnumStructure))
        (im : List (String × String)) (c : ClassDecl),
        buildClassInterfaces em im c = []
        ∨ ∃ iname pp dp, buildClassInterfaces em im c
            = [⟨iname, pp⟩, ⟨iname ++ "Data", dp⟩] := by
  refine ⟨?_, ?_, ?_⟩
  · simp only [outputStatements, allInterfacesOf_eq]
  · rw [mapValues_names_eq_keys _ (buildEnumMap_name_inv files),
      buildEnumMap_keys]
  · intro em im c
    cases h : jsTruthyName c.name with
    | none => exact Or.inl (buildClassInterfaces_none em im c h)
    | some n =>
        exact Or.inr ⟨(mapGet im n).getD "", _, _,
          buildClassInterfaces_some em im c h⟩

/-- Claim C8: with zero matched input units the run aborts with the
fatal message and exit code 1, before any generation, and never produces
an output artifact. -/
theorem C8_zero_inputs_abort (pfx : Bool) :
    runProgram [] pfx
      = Except.error ("No files matched the input pattern", 1)
    ∧ (1 : Nat) ≠ 0
    ∧ ∀ out, runProgram [] pfx ≠ Except.ok out := by
  refine ⟨rfl, by decide, ?_⟩
  intro out h
  simp [runProgram] at h

/-- Claim C9 (amended): for a property whose annotation set does not
intersect the four relation markers, the output type in both shapes is
the declared type text — except when the property's type symbol is
declared as an enum, in which case the output is the enum symbol's name
instead of the type text.  The signature is pushed into both the plain
and the full property list. -/
theorem C9_nonrelation_identity
    (enumMap : List (String × EnumStructure))
    (interfaceMap : List (String × String)) (p : PropertyDecl)
    (hrel : hasRelationDecorator p.decorators = false) :
    ((p.type.symbolName = none ∨ p.type.symbolIsEnumDecl = false) →
      computePropType enumMap interfaceMap p = p.type.text)
    ∧ (∀ n, p.type.symbolName = some n →
        p.type.symbolIsEnumDecl = true →
        computePropType enumMap interfaceMap p = n)
    ∧ ∀ c : ClassDecl, p ∈ c.properties →
        propSignature enumMap interfaceMap p
          ∈ (classProperties enumMap interfaceMap c.properties).1
        ∧ propSignature enumMap interfaceMap p
          ∈ (classProperties enumMap interfaceMap c.properties).2 := by
  refine ⟨?_, ?_, ?_⟩
  · rintro (hs | hs)
    · simp [computePropType, hrel, enumRewrittenType, hs]
    · cases hsym : p.type.symbolName with
      | none =>
          simp [computePropType, hrel, enumRewrittenType, hsym]
      | some n =>
          simp [computePropType, hrel, enumRewrittenType, hsym, hs]
  · intro n hsym henum
    simp [computePropType, hrel, enumRewrittenType, hsym, henum,
      ite_self]
  · intro c hp
    rw [classProperties_eq]
    constructor
    · simp only
      apply List.mem_map.mpr
      refine ⟨p, ?_, rfl⟩
      rw [List.mem_filter]
      exact ⟨hp, by simp [hrel]⟩
    · simp only
      exact List.mem_map.mpr ⟨p, hp, rfl⟩

/-- Witness for C9: a non-relation, non-enum property keeps its declared
type text. -/
theorem C9_identity_witness :
    computePropType [] []
      ⟨"id", ["PrimaryGeneratedColumn"], false, some ⟨"number", []⟩,
        ⟨"number", none, false, none, false⟩⟩ = "number" :=
  (C9_nonrelation_identity [] []
    ⟨"id", ["PrimaryGeneratedColumn"], false, some ⟨"number", []⟩,
      ⟨"number", none, false, none, false⟩⟩ (by decide)).1 (Or.inl rfl)

/-- Counterexample to C9 as stated: a `Column`-decorated property whose
type symbol is an enum declaration.  The declared type text is the
qualified "import(m).Status", but the generator rewrites the output type
to the enum symbol name "Status" — not the declared text. -/
theorem C9_counterexample :
    computePropType
      [("Status", ⟨"Status", [⟨"Active", some "0"⟩]⟩)] []
      ⟨"status", ["Column"], false, some ⟨"Status", []⟩,
        ⟨"import(m).Status", some "Status", true, none, false⟩⟩
      = "Status"
    ∧ "Status" ≠ "import(m).Status" := by
  exact ⟨rfl, by decide⟩

/-- Claim C10: when a class name occurs (truthy) at least twice across
the inputs, the symbol table still holds exactly one entry for it — the
computed shape name — while pass 2 emits two shapes per class occurrence
with no deduplication, so the output contains at least two interface
structures bearing the same shape name. -/
theorem C10_duplicate_class_names (files : List SourceFileUnit)
    (pfx : Bool) (n : String)
    (hdup : 2 ≤ (truthyClassNames files).count n) :
    (mapKeys (buildInterfaceMap files pfx)).count n = 1
    ∧ mapGet (buildInterfaceMap files pfx) n = some (shapeName pfx n)
    ∧ (allInterfacesOf files pfx).length
        = 2 * (truthyClassNames files).length
    ∧ 2 ≤ ((allInterfacesOf files pfx).map (fun i => i.name)).count
        (shapeName pfx n) := by
  have hmem : n ∈ truthyClassNames files := by
    have hpos : 0 < (truthyClassNames files).count n := by omega
    exact List.count_pos_iff.mp hpos
  have hs := buildInterfaceMap_spec files pfx
  have hget : mapGet (buildInterfaceMap files pfx) n
      = some (shapeName pfx n) := by
    rw [hs.2 n, if_pos hmem]
  have hkeys : n ∈ mapKeys (buildInterfaceMap files pfx) :=
    mapGet_eq_some_mem hget
  refine ⟨List.count_eq_one_of_mem hs.1 hkeys, hget,
    allInterfacesOf_length files pfx, ?_⟩
  have hall : ∀ m ∈ truthyClassNames files,
      mapGet (buildInterfaceMap files pfx) m
        = some (shapeName pfx m) := by
    intro m hm
    rw [hs.2 m, if_pos hm]
  have hcount := count_shape_names_files (buildEnumMap files)
    (buildInterfaceMap files pfx) pfx n files hall
  rw [allInterfacesOf_eq]
  omega

/-- Witness for C10: two classes named `User` in one input unit yield a
single table entry and duplicate `IUser`-named shape definitions. -/
theorem C10_duplicates_witness :
    mapGet (buildInterfaceMap
        [⟨[], [⟨some "User", []⟩, ⟨some "User", []⟩]⟩] true) "User"
      = some "IUser"
    ∧ 2 ≤ ((allInterfacesOf
        [⟨[], [⟨some "User", []⟩, ⟨some "User", []⟩]⟩] true).map
          (fun i => i.name)).count (shapeName true "User") := by
  have h := C10_duplicate_class_names
    [⟨[], [⟨some "User", []⟩, ⟨some "User", []⟩]⟩] true "User"
    (by decide)
  exact ⟨h.2.1.trans (by decide), h.2.2.2⟩

/-- Witness for C2: with prefixing off, the class name `Profile`
occurring in a property type text is importable and the computed set is
duplicate-free. -/
theorem C2_imports_witness :
    "Profile" ∈ PerFile.computeImports
      [("Order", "Order"), ("Profile", "Profile")] "Order"
      [⟨"customer", "Profile", false⟩]
    ∧ (PerFile.computeImports [("Order", "Order"), ("Profile", "Profile")]
        "Order" [⟨"customer", "Profile", false⟩]).Nodup := by
  have h := C2_perFile_imports [("Order", "Order"), ("Profile", "Profile")]
    "Order" [⟨"customer", "Profile", false⟩]
  refine ⟨(h.2 "Profile").mpr ?_, h.1⟩
  refine ⟨by decide, by decide,
    ⟨"customer", "Profile", false⟩, List.mem_singleton.mpr rfl,
    "Profile", ?_, rfl⟩
  decide

/-- Witness for C7: one enum and one empty class produce the enum
statement first, then the plain and "Data" interfaces in order. -/
theorem C7_order_witness :
    outputStatements
      [⟨[⟨some "Color", [⟨"Red", none⟩]⟩], [⟨some "User", []⟩]⟩] true
      = [OutputStatement.enumStmt ⟨"Color", [⟨"Red", none⟩]⟩,
         OutputStatement.interfaceStmt ⟨"IUser", []⟩,
         OutputStatement.interfaceStmt ⟨"IUserData", []⟩] := by
  have h := (C7_output_order
    [⟨[⟨some "Color", [⟨"Red", none⟩]⟩], [⟨some "User", []⟩]⟩] true).1
  rw [h]
  decide

/-- Witness for C8: the empty input aborts with the fatal error value. -/
theorem C8_abort_witness :
    runProgram [] true
      = Except.error ("No files matched the input pattern", 1) :=
  (C8_zero_inputs_abort true).1
